import Mathlib

/-!
Verification of the SGTK Maya publish hooks repository.

The repository's Python code manipulates strings (node names, publish names,
namespaces, file paths) and small lists.  We shallowly embed the relevant
operations over `List Char` (a Python `str` is a sequence of characters) and
over plain Lean structures for the host-application state the hooks read and
write (scene nodes, playback range, alembic archives, tracking-service
publish records).

Python string primitives used by the code are reproduced faithfully:
  - `sep in s`            → `occursIn sep s`  (substring containment)
  - `s.split(sep)`        → `splitOn sep s`   (leftmost, non-overlapping)
  - `re.search('_v\d{3}', s)` → `searchV3 s`  (leftmost `_v` + 3 digits)
  - `re.search('_v\d+', s)`   → `searchVPlus s` (leftmost `_v` + digits, greedy)
  - `re.search('\d+', s)`     → `searchDigits s`
  - `int(<digit string>)`     → `digitsToNat`
`re.search(pat, s)` where `pat` is itself one of the extracted names is
modelled as substring search, which is exact whenever the extracted name
contains no regex metacharacters (all names that satisfy the studio naming
conventions consist of word characters only).
-/

namespace SGTK

/-- If `sep` is a prefix of `s`, return the remainder of `s` after `sep`
(the step primitive behind Python's substring scan). -/
def consume : List Char → List Char → Option (List Char)
  | [], s => some s
  | _ :: _, [] => none
  | p :: ps, c :: cs => if p = c then consume ps cs else none

/-- Python `sep in s` for a nonempty `sep`: some suffix of `s` starts with `sep`. -/
def occursIn (sep : List Char) : List Char → Bool
  | [] => (consume sep ([] : List Char)).isSome
  | c :: rest => (consume sep (c :: rest)).isSome || occursIn sep rest

/-- Fuel-indexed worker for Python `s.split(sep)`: scan left to right,
consuming non-overlapping occurrences of `sep` greedily.  The fuel only
needs to exceed `s.length` (each step shortens `s`), so the wrapper
`splitOn` below always supplies enough. -/
def splitOnFuel (sep : List Char) : Nat → List Char → List (List Char)
  | 0, s => [s]
  | fuel + 1, s =>
    match consume sep s with
    | some r => [] :: splitOnFuel sep fuel r
    | none =>
      match s with
      | [] => [[]]
      | c :: rest =>
        match splitOnFuel sep fuel rest with
        | [] => [[c]]
        | h :: t => (c :: h) :: t

/-- Python `s.split(sep)` for nonempty `sep` (Python raises on an empty
separator; the code never splits on one, and we return `[s]` there). -/
def splitOn (sep s : List Char) : List (List Char) :=
  if sep = [] then [s] else splitOnFuel sep (s.length + 1) s

/-- Match of the regex `_v\d{3}` anchored at the start of `s`. -/
def matchV3At : List Char → Option (List Char)
  | '_' :: 'v' :: d1 :: d2 :: d3 :: _ =>
    if d1.isDigit && d2.isDigit && d3.isDigit then some ['_', 'v', d1, d2, d3]
    else none
  | _ => none

/-- Python `re.search('_v\d{3}', s)`: the leftmost match of `_v` followed by
three digits (the matched text is returned, as `.group(0)` does). -/
def searchV3 : List Char → Option (List Char)
  | [] => none
  | c :: rest =>
    match matchV3At (c :: rest) with
    | some m => some m
    | none => searchV3 rest

/-- Match of the regex `_v\d+` anchored at the start of `s` (greedy digits). -/
def matchVPlusAt : List Char → Option (List Char)
  | '_' :: 'v' :: rest =>
    let ds := rest.takeWhile Char.isDigit
    if ds.isEmpty then none else some ('_' :: 'v' :: ds)
  | _ => none

/-- Python `re.search('_v\d+', s)`: leftmost match, greedy digit run. -/
def searchVPlus : List Char → Option (List Char)
  | [] => none
  | c :: rest =>
    match matchVPlusAt (c :: rest) with
    | some m => some m
    | none => searchVPlus rest

/-- Python `re.search('\d+', s)`: leftmost maximal digit run. -/
def searchDigits : List Char → Option (List Char)
  | [] => none
  | c :: rest =>
    if c.isDigit then some (c :: rest.takeWhile Char.isDigit)
    else searchDigits rest

/-- Python `int(s)` on a string of decimal digits. -/
def digitsToNat (ds : List Char) : Nat :=
  ds.foldl (fun n c => n * 10 + (c.toNat - 48)) 0

/-- Python `max(l)` on a nonempty list of naturals (0 on the empty list,
which the code never reaches). -/
def maxList (l : List Nat) : Nat := l.foldl max 0

/-- Python `s.startswith('_') or s.endswith('_')` (false on the empty string). -/
def startsOrEndsUnderscore (s : List Char) : Bool :=
  s.headD ' ' = '_' || s.getLastD ' ' = '_'

/-! ### The publish plugins' version computation

`MayaCameraPublishPlugin.set_version` (publish_camera.py lines 244-293) and
`MayaShaderPublishPlugin.set_version` (publish_mesh.py lines 250-299) are
character-for-character identical; one embedding covers both. -/

/-- `GEO_CONSTANT_ENTITIES` from publish_camera.py / publish_mesh.py. -/
def GEO_CONSTANT_ENTITIES : List (List Char) :=
  ["_MMtrackalembic_".toList, "_MMtrackfbx_".toList,
   "_fxgeo_".toList, "_lgtgeo_".toList, "_RAtrackalembic_".toList,
   "_animgeo_".toList, "_layoutgeo_".toList]

/-- One iteration of the `for entities in GEO_CONSTANT_ENTITIES` loop in
`set_version`.  The accumulator is the current `extracted_name` (with `none`
standing for the initial Python value `str`, the type object) paired with a
flag recording whether "Naming Convention error" has been logged. -/
def extractNameStep (publish_name : List Char) (acc : Option (List Char) × Bool)
    (entities : List Char) : Option (List Char) × Bool :=
  if occursIn entities publish_name then
    -- `split_entity = entities[1:]`,
    -- `split_name_with_version = publish_name.split(entities)[-1]`,
    -- `extract_name = split_name_with_version.split(extract_version)[0]`
    match searchV3 ((splitOn entities publish_name).getLastD []) with
    | some extract_version =>
      (some (entities.drop 1
         ++ (splitOn extract_version ((splitOn entities publish_name).getLastD [])).headD []
         ++ ['_']), acc.2)
    | none => (some [], true)
  else acc

/-- The name-extraction loop of `set_version`, together with the error flag. -/
def extractNameLog (publish_name : List Char) : Option (List Char) × Bool :=
  GEO_CONSTANT_ENTITIES.foldl (extractNameStep publish_name) (none, false)

/-- `extracted_name` as left by the loop in `set_version`. -/
def extractName (publish_name : List Char) : Option (List Char) :=
  (extractNameLog publish_name).1

/-- The body of the `try` block in `set_version`, for one publish record's
`code`: a version number is collected iff `extracted_name` is a nonempty
string occurring in the code, and the code has a `_v\d+` token.  All other
paths raise (`TypeError` on `re.search(str, ...)`, `AttributeError` on
`None.group(0)`) and are swallowed by the bare `except`. -/
def codeVersion (en : Option (List Char)) (code : List Char) : Option Nat :=
  match en with
  | none => none
  | some name =>
    if !name.isEmpty && occursIn name code then
      match searchVPlus code with
      | some version_str =>
        match searchDigits version_str with
        | some ds => some (digitsToNat ds)
        | none => none
      | none => none
    else none

/-- `set_version` (both plugins), as a function of the publish name and of the
`code` fields of the publish records returned by `engine.shotgun.find`. The
second `for publishes in get_publish_list` loop always returns on its first
iteration, yielding `max(versions) + 1` or `1`; `max(versions) + 1 or 1`
equals `max(versions) + 1` since version numbers are non-negative. -/
def set_version (publish_name : List Char) (codes : List (List Char)) : Nat :=
  let en := extractName publish_name
  let versions := if codes.isEmpty then [] else codes.filterMap (codeVersion en)
  match codes with
  | [] => 1
  | _ :: _ => if versions.isEmpty then 1 else maxList versions + 1

/-! ### The publish plugins' validate checks -/

/-- `namings` from publish_camera.py / publish_mesh.py. -/
def namings : List (List Char) :=
  ["MMtrackalembic_".toList, "MMtrackfbx_".toList,
   "fxgeo_".toList, "lgtgeo_".toList,
   "RAtrackalembic_".toList, "animgeo_".toList,
   "layoutgeo_".toList]

/-- `grp_name` from publish_camera.py / publish_mesh.py. -/
def grp_name : List (List Char) := ["group".toList]

/-- `maya_native_geo_names` from publish_mesh.py. -/
def maya_native_geo_names : List (List Char) :=
  ["pSphere".toList, "pCube".toList, "pCylinder".toList, "pCone".toList,
   "pTorus".toList, "pPlane".toList, "pDisc".toList, "pPlatonic".toList,
   "pPyramid".toList, "pPrism".toList, "pPipe".toList, "pHelix".toList,
   "pGear".toList, "pSolid".toList, "pSuperShape".toList]

/-- The distinct error messages `validate` can put into its `error_msg`
dict, keyed by the node names interpolated into the message text. -/
inductive ValMsg where
  | nativeName (node : List Char)
  | notStartingConvention (node : List Char)
  | underscoreName (node : List Char)
  | noConventionEntity (node : List Char)
  | addToConventionGroup (node : List Char)
  | onlyConventionNotation (node : List Char)
  | nativeInside (inner outer : List Char)
deriving DecidableEq, Repr

/-- The naming-convention checks of `MayaCameraPublishPlugin.validate`
(publish_camera.py lines 330-362), in source order.  `descendants` models
`cmds.listRelatives(cam_name, ad=True)` and `hasShapes` models
`cmds.listRelatives(cam_name, shapes=1)` being non-empty.  The Python code
collects the messages in a dict (so duplicated texts collapse); the claims
only concern which messages are present, which the list preserves. -/
def cameraValidationErrors (cam_name : List Char) (descendants : List (List Char))
    (hasShapes : Bool) : List ValMsg :=
  (if grp_name.any (fun g => g.isPrefixOf cam_name) then [.nativeName cam_name] else [])
  ++ (if !(namings.any (fun nm => nm.isPrefixOf cam_name)) then
        [.notStartingConvention cam_name] else [])
  ++ (if startsOrEndsUnderscore cam_name then [.underscoreName cam_name] else [])
  ++ (if !hasShapes && !(namings.any (fun e => occursIn e cam_name)) then
        [.noConventionEntity cam_name] else [])
  ++ descendants.filterMap (fun d =>
       if startsOrEndsUnderscore d then some (.underscoreName d) else none)

/-- `if error_msg != {}: ... gui.show(); app.exec_()` in the camera plugin. -/
def cameraShowsWarning (cam_name : List Char) (descendants : List (List Char))
    (hasShapes : Bool) : Bool :=
  !(cameraValidationErrors cam_name descendants hasShapes).isEmpty

/-- The naming-convention checks of `MayaShaderPublishPlugin.validate`
(publish_mesh.py lines 341-401), in source order.  `hasMeshShape` models
`cmds.listRelatives(nodes, shapes=1, type='mesh')` being non-empty and
`hasAnyShape` models `cmds.listRelatives(nodes, shapes=1)`. -/
def meshValidationErrors (object_name : List Char) (descendants : List (List Char))
    (hasMeshShape hasAnyShape : Bool) : List ValMsg :=
  (if maya_native_geo_names.any (fun nm => occursIn nm object_name) then
      [.nativeName object_name] else [])
  ++ (if !(namings.any (fun nm => nm.isPrefixOf object_name)) then
        [.notStartingConvention object_name] else [])
  ++ (if hasMeshShape then [.addToConventionGroup object_name] else [])
  ++ (if grp_name.any (fun g => g.isPrefixOf object_name) then
        [.nativeName object_name] else [])
  ++ (if !hasAnyShape && !(namings.any (fun e => occursIn e object_name)) then
        [.noConventionEntity object_name] else [])
  ++ (if namings.any (fun nm => nm = object_name) then
        [.onlyConventionNotation object_name] else [])
  ++ (if startsOrEndsUnderscore object_name then [.underscoreName object_name] else [])
  ++ descendants.flatMap (fun d =>
       (if maya_native_geo_names.any (fun nm => nm.isPrefixOf d) then
          [.nativeInside d object_name] else [])
       ++ (if startsOrEndsUnderscore d then [.underscoreName d] else []))

/-- `if error_msg != {}: ... gui.show(); app.exec_()` in the mesh plugin. -/
def meshShowsWarning (object_name : List Char) (descendants : List (List Char))
    (hasMeshShape hasAnyShape : Bool) : Bool :=
  !(meshValidationErrors object_name descendants hasMeshShape hasAnyShape).isEmpty

/-! ### The publish plugins' publish methods (publish_camera.py lines 441-515,
publish_mesh.py lines 482-562)

Scene state is modelled by the list of node names plus the host queries the
code makes (`playbackOptions`, `referenceQuery`, `ls(assemblies=True)`).
Host floats are modelled as rationals: the code only copies, formats and
compares them.  `export_ok` models whether `mel.eval` of the `AbcExport`
command raises (the `except` branch logs and returns early).  The
`abc_start_frame` attribute bookkeeping and the selection save/restore are
scene side effects none of the claims concern and are not tracked here. -/

/-- Python `int()` on a host float (truncation toward zero). -/
def pyInt (q : ℚ) : ℤ := q.num.tdiv (q.den : ℤ)

/-- One `AbcExport -j "-frameRange <s> <e> ... -root <root> ... -file <file>"`
invocation (the flag sets differ between the two plugins but both cover
exactly the playback range, one root node and one output file). -/
structure AbcJob where
  startF : ℚ
  endF : ℚ
  root : List Char
  file : List Char
deriving DecidableEq, Repr

/-- `publish_type` string set by both plugins. -/
def alembicCache : List Char := "Alembic Cache".toList

/-- Externally visible effects of one `publish` call. -/
structure PubEffects where
  sceneNodes : List (List Char)
  jobs : List AbcJob
  publishType : Option (List Char)
  baseCalled : Bool
deriving DecidableEq, Repr

/-- `cmds.rename(old, new)`: the node named `old` is now named `new`. -/
def renameNode (nodes : List (List Char)) (old new : List Char) : List (List Char) :=
  nodes.map (fun n => if n = old then new else n)

/-- `MayaCameraPublishPlugin.publish`.  Returns `none` when the call raises
(`IndexError` on `get_nameing_convention[0]` when no naming-convention token
occurs in the camera name).  On an export failure inside the `try`, the
plugin logs and returns early: the rename back is skipped, `publish_type` is
never set and the base plugin is not invoked. -/
def cameraPublish (camera_name publish_path : List Char) (os_sep : Char)
    (start_frame end_frame : ℚ) (is_referenced export_ok : Bool)
    (scene_nodes : List (List Char)) : Option PubEffects :=
  let file := publish_path.map (fun c => if c = os_sep then '/' else c)
  if is_referenced then
    if export_ok then
      some ⟨scene_nodes, [⟨start_frame, end_frame, camera_name, file⟩],
            some alembicCache, true⟩
    else
      some ⟨scene_nodes, [⟨start_frame, end_frame, camera_name, file⟩], none, false⟩
  else
    match (namings.filter (fun nm => occursIn nm camera_name)).head? with
    | none => none
    | some conv =>
      let stripped := (splitOn conv camera_name).getLastD []
      let renamed := renameNode scene_nodes camera_name stripped
      if export_ok then
        some ⟨renameNode renamed stripped camera_name,
              [⟨start_frame, end_frame, stripped, file⟩], some alembicCache, true⟩
      else
        some ⟨renamed, [⟨start_frame, end_frame, stripped, file⟩], none, false⟩

/-- One entry of `cmds.ls(assemblies=True)` as the mesh publish loop sees it:
its name, whether `cmds.ls(meshes, dag=True, type="mesh")` is non-empty,
whether it is referenced, and whether its `AbcExport` succeeds. -/
structure MeshAssembly where
  name : List Char
  hasMesh : Bool
  isReferenced : Bool
  exportOk : Bool
deriving Repr

/-- Outcome of the `for meshes in cmds.ls(assemblies=True)` loop in
`MayaShaderPublishPlugin.publish`: it can raise (`IndexError` when no naming
token occurs in a matching non-referenced node), return early from `publish`
after a failed export, or run to completion. -/
inductive MeshLoopOut where
  | crash
  | early (nodes : List (List Char)) (jobs : List AbcJob)
  | done (nodes : List (List Char)) (jobs : List AbcJob)
deriving Repr

def meshLoop (mesh_object file : List Char) (s e : ℚ) :
    List MeshAssembly → List (List Char) → List AbcJob → MeshLoopOut
  | [], nodes, jobs => .done nodes jobs
  | m :: rest, nodes, jobs =>
    if m.hasMesh = false then meshLoop mesh_object file s e rest nodes jobs
    else if m.name = mesh_object then
      (if m.isReferenced = true then
        (if m.exportOk = true then
          meshLoop mesh_object file s e rest nodes (jobs ++ [⟨s, e, m.name, file⟩])
        else .early nodes (jobs ++ [⟨s, e, m.name, file⟩]))
      else
        match (namings.filter (fun nm => occursIn nm m.name)).head? with
        | none => .crash
        | some conv =>
          if m.exportOk = true then
            meshLoop mesh_object file s e rest
              (renameNode (renameNode nodes m.name ((splitOn conv m.name).getLastD []))
                ((splitOn conv m.name).getLastD []) m.name)
              (jobs ++ [⟨s, e, (splitOn conv m.name).getLastD [], file⟩])
          else .early (renameNode nodes m.name ((splitOn conv m.name).getLastD []))
            (jobs ++ [⟨s, e, (splitOn conv m.name).getLastD [], file⟩]))
    else meshLoop mesh_object file s e rest nodes jobs

/-- `MayaShaderPublishPlugin.publish`.  The frame range is truncated with
`int()`; `publish_path.replace("\\", "/")` is applied to the file argument.
After the loop completes, `publish_type` is set and the base plugin invoked
even when no assembly matched. -/
def meshPublish (mesh_object publish_path : List Char)
    (playback_min playback_max : ℚ) (assemblies : List MeshAssembly)
    (scene_nodes : List (List Char)) : Option PubEffects :=
  match meshLoop mesh_object (publish_path.map (fun c => if c = '\\' then '/' else c))
      ((pyInt playback_min : ℤ) : ℚ) ((pyInt playback_max : ℤ) : ℚ)
      assemblies scene_nodes [] with
  | .crash => none
  | .early nodes jobs => some ⟨nodes, jobs, none, false⟩
  | .done nodes jobs => some ⟨nodes, jobs, some alembicCache, true⟩

/-! ### The loader hook (tk-maya-loader2.py) -/

/-- `GEO_CONSTANT_ENTITIES` from tk-maya-loader2.py (no underscores here). -/
def loaderEntities : List (List Char) :=
  ["MMtrackalembic".toList, "MMtrackfbx".toList,
   "fxgeo".toList, "lgtgeo".toList,
   "RAtrackalembic".toList, "animgeo".toList,
   "layoutgeo".toList]

/-- One action dictionary returned by `generate_actions` (`params` is always
`None` and is omitted). -/
structure ActionInstance where
  name : String
  caption : String
  description : String
deriving DecidableEq, Repr

/-- `MayaActions._get_maya_version` (tk-maya-loader2.py lines 485-502), as a
function of the string `cmds.about(version=True)` returns.  Python's
`str.isdigit` is modelled by ASCII digits, which is exact for Maya version
strings. -/
def get_maya_version (maya_ver : List Char) : Nat :=
  let v := if "Maya ".toList.isPrefixOf maya_ver then maya_ver.drop 5 else maya_ver
  let major := (splitOn ['.'] ((splitOn [' '] v).headD [])).headD []
  if !major.isEmpty && major.all Char.isDigit then digitsToNat major else 0

/-- `MayaActions.generate_actions` (tk-maya-loader2.py lines 37-135): one
append per recognised action name, in source order, with the UDIM texture
node additionally gated on the Maya major version. -/
def generate_actions (actions : List String) (maya_ver : List Char) : List ActionInstance :=
  (if "reference" ∈ actions then
    [⟨"reference", "Create Reference",
      "This will add the item to the scene as a standard reference."⟩] else [])
  ++ (if "import" ∈ actions then
    [⟨"import", "Import into Scene",
      "This will import the item into the current scene."⟩] else [])
  ++ (if "texture_node" ∈ actions then
    [⟨"texture_node", "Create Texture Node",
      "Creates a file texture node for the selected item.."⟩] else [])
  ++ (if "udim_texture_node" ∈ actions then
      (if 2015 ≤ get_maya_version maya_ver then
        [⟨"udim_texture_node", "Create Texture Node",
          "Creates a file texture node for the selected item.."⟩] else [])
    else [])
  ++ (if "image_plane" ∈ actions then
    [⟨"image_plane", "Create Image Plane",
      "Creates an image plane for the selected item.."⟩] else [])

/-- One node of a loaded reference as the offset-reconciliation code reads
it: `cmds.attributeQuery('abc_start_frame', ...)` / `cmds.getAttr`, and
`cmds.attributeQuery('offset', ...)` / `cmds.setAttr`. -/
structure RefNode where
  name : List Char
  hasAbcStart : Bool
  abcStart : ℚ
  hasOffset : Bool
  offset : ℚ
deriving DecidableEq, Repr

/-- The `atrib` flag: some node of the new reference carries an
`abc_start_frame` attribute equal to the playback minimum. -/
def atribOf (first_frame : ℤ) (nodes : List RefNode) : Bool :=
  nodes.any (fun n => n.hasAbcStart && decide (n.abcStart = (first_frame : ℚ)))

/-- One child of the alembic archive top object: whether
`alembic.AbcGeom.IXform.matches` its header, and
`24 * time_smap.getSampleTime(0)` for its schema. -/
structure AbcChild where
  isXform : Bool
  sampleTime0 : ℚ
deriving Repr

/-- The alembic archive data the loader reads. `ts0SampleTime1` is
`abc_archeive.getTimeSampling(0).getSampleTime(1)`. -/
structure AbcArchive where
  children : List AbcChild
  ts0SampleTime1 : ℚ
deriving Repr

/-- The `for child in top.children` loop: `temp_start_frame` as left by the
last Xform child, `none` when there is none (Python then still holds the
`float` type object). -/
def tempStartFrame (a : AbcArchive) : Option ℚ :=
  a.children.foldl (fun acc c => if c.isXform then some (24 * c.sampleTime0) else acc) none

/-- `start_frame` as computed from the cache's time sampling.  With no Xform
child, `start_frame` is still the `float` type object and the subsequent
`float(start_frame)` raises `TypeError`, modelled as `none`. -/
def cacheStartFrame (a : AbcArchive) : Option ℚ :=
  match tempStartFrame a with
  | none => none
  | some t => if t = 0 then some a.ts0SampleTime1 else some t

/-- The final two-way comparison that picks the offset in the non-`atrib`
branch (`if float(first_frame) != float(start_frame): ... elif ... == ...`). -/
def abcOffsetFinal (first_frame start_frame : ℚ) : ℚ :=
  if first_frame ≠ start_frame then first_frame else start_frame

/-- `abc_offset` as computed by `_create_reference` / `_do_import` once the
loaded file ends in `.abc`. -/
def abcOffsetOf (first_frame : ℤ) (nodes : List RefNode) (archive : AbcArchive) :
    Option ℚ :=
  if atribOf first_frame nodes then some 0
  else (cacheStartFrame archive).map (abcOffsetFinal (first_frame : ℚ))

/-- The `for ref_file in get_ref_file` loop: every node bearing an `offset`
attribute receives `cmds.setAttr(ref_file+'.offset', abc_offset)`. -/
def applyOffsets (off : ℚ) (nodes : List RefNode) : List RefNode :=
  nodes.map (fun n => if n.hasOffset then { n with offset := off } else n)

/-- The complete post-load block shared verbatim by `_create_reference`
(lines 247-308) and `_do_import` (lines 351-412): nothing happens unless the
value returned by `cmds.file` ends in `.abc`; otherwise the offset is
computed and written to every node with an `offset` attribute. -/
def postLoadOffsets (file_path : List Char) (nodes : List RefNode)
    (archive : AbcArchive) (first_frame : ℤ) : Option (List RefNode) :=
  if ".abc".toList.isSuffixOf file_path then
    (abcOffsetOf first_frame nodes archive).map (fun off => applyOffsets off nodes)
  else some nodes

/-- One iteration of the namespace loop in `_create_reference` /
`_do_import`: when the entity token occurs but no `_v\d+` token follows,
`.group(0)` is called on `None` and the uncaught `AttributeError` aborts the
action. -/
def loaderNamespaceStep (ns entities : List Char) : Option (List Char) :=
  if occursIn entities ns then
    let after := (splitOn entities ns).getLastD []
    match searchVPlus after with
    | none => none
    | some get_version => some (entities ++ (splitOn get_version after).headD [])
  else some ns

/-- The namespace computed from the publish's entity name and publish name
(`"%s %s" % (...)`, spaces replaced by underscores, then the entity loop). -/
def loaderNamespace (entity_name publish_name : List Char) : Option (List Char) :=
  let ns0 := (entity_name ++ [' '] ++ publish_name).map
    (fun c => if c = ' ' then '_' else c)
  loaderEntities.foldlM loaderNamespaceStep ns0

/-- Ways `_create_reference` / `_do_import` can raise. -/
inductive LoaderError where
  | fileNotFound (path : List Char)
  | namespaceError
  | startFrameError
deriving DecidableEq, Repr

/-- The host state a load would produce: the value `cmds.file` returns, the
nodes `cmds.referenceQuery(file_path, n=True)` lists for it, and the alembic
archive at the path. -/
structure LoadedFile where
  file_path : List Char
  nodes : List RefNode
  archive : AbcArchive

/-- The scene additions of a successful `reference` / `import` action. -/
structure LoadResult where
  ns : List Char
  nodes : List RefNode

/-- `MayaActions._create_reference` (tk-maya-loader2.py lines 207-308).  The
very first statement raises when the path does not exist on disk, before the
namespace is built and before `cmds.file` touches the scene. -/
def create_reference (path_exists : Bool) (path : List Char)
    (entity_name publish_name : List Char) (loaded : LoadedFile)
    (playback_min : ℚ) : Except LoaderError LoadResult :=
  if !path_exists then .error (.fileNotFound path)
  else
    match loaderNamespace entity_name publish_name with
    | none => .error .namespaceError
    | some ns =>
      match postLoadOffsets loaded.file_path loaded.nodes loaded.archive
          (pyInt playback_min) with
      | none => .error .startFrameError
      | some nodes => .ok ⟨ns, nodes⟩

/-- `MayaActions._do_import` (tk-maya-loader2.py lines 311-412): identical to
`_create_reference` except for the flags passed to `cmds.file` (import
instead of reference), which our scene abstraction does not distinguish. -/
def do_import (path_exists : Bool) (path : List Char)
    (entity_name publish_name : List Char) (loaded : LoadedFile)
    (playback_min : ℚ) : Except LoaderError LoadResult :=
  if !path_exists then .error (.fileNotFound path)
  else
    match loaderNamespace entity_name publish_name with
    | none => .error .namespaceError
    | some ns =>
      match postLoadOffsets loaded.file_path loaded.nodes loaded.archive
          (pyInt playback_min) with
      | none => .error .startFrameError
      | some nodes => .ok ⟨ns, nodes⟩

/-! ### The namespace manager (namespace_manager.py) -/

/-- One file reference in the scene: its resolved file path and its current
namespace. -/
structure RefFile where
  path : List Char
  ns : String
deriving DecidableEq, Repr

/-- `NamespaceManager.validate` (namespace_manager.py lines 79-103): first
component is whether a `QMessageBox.warning` dialog is shown, second is the
return value.  Python string truthiness: empty means unset. -/
def nmValidate (naming_convention apply_option text : String) : Bool × Bool :=
  if naming_convention = "" ∨ apply_option = "" then (true, false)
  else if text = "" then (true, false)
  else (false, true)

/-- `cmds.file(file_reference, edit=True, namespace=name)`: every reference
resolved from that file path gets the new namespace. -/
def setRefNamespace (refs : List RefFile) (file_reference : List Char)
    (name : String) : List RefFile :=
  refs.map (fun r => if r.path = file_reference then { r with ns := name } else r)

/-- `NamespaceManager.process_naming_convention` (namespace_manager.py lines
105-130).  `selected` models the file paths `cmds.referenceQuery(node,
filename=True)` yields for the selected nodes; the All-nodes branch walks
`cmds.file(query=True, l=True)`, modelled as the paths of the scene's
references, skipping `.ma` files. -/
def process_naming_convention (naming_convention apply_option text : String)
    (selected : List (List Char)) (refs : List RefFile) : List RefFile :=
  if (nmValidate naming_convention apply_option text).2 then
    let name := naming_convention ++ "_" ++ text
    if apply_option = "Only Selected Nodes" then
      selected.foldl (fun rs p => setRefNamespace rs p name) refs
    else if apply_option = "All nodes" then
      (refs.map (fun r => r.path)).foldl
        (fun rs p => if ".ma".toList.isSuffixOf p then rs else setRefNamespace rs p name)
        refs
    else refs
  else refs

/-- The simplified assignment that claim C8 says the non-`atrib` branch is
equivalent to: `abc_offset = first_frame`, ignoring the start frame read
from the cache.  (Stated from the claim's words, to be compared with
`abcOffsetFinal`, which is stated from the code.) -/
def abcOffsetConst (first_frame _start_frame : ℚ) : ℚ := first_frame

/-! ### Lemmas about the string primitives -/

theorem consume_eq_some_iff (sep : List Char) :
    ∀ (s r : List Char), consume sep s = some r ↔ s = sep ++ r := by
  induction sep with
  | nil => intro s r; simp [consume]
  | cons p ps ih =>
    intro s r
    cases s with
    | nil => simp [consume]
    | cons c cs =>
      simp only [consume]
      by_cases h : p = c
      · subst h; simp [ih]
      · rw [if_neg h]
        constructor
        · intro hx; cases hx
        · intro hx
          exact absurd (List.cons.injEq .. ▸ hx).1.symm h

theorem consume_self_append (sep r : List Char) : consume sep (sep ++ r) = some r :=
  (consume_eq_some_iff sep (sep ++ r) r).mpr rfl

theorem consume_length {sep s r : List Char} (h : consume sep s = some r) :
    s.length = sep.length + r.length := by
  have hs := (consume_eq_some_iff sep s r).mp h
  subst hs; simp

theorem occursIn_nil (sep : List Char) :
    occursIn sep [] = (consume sep ([] : List Char)).isSome := rfl

theorem occursIn_cons (sep : List Char) (c : Char) (rest : List Char) :
    occursIn sep (c :: rest) = ((consume sep (c :: rest)).isSome || occursIn sep rest) := rfl

theorem occursIn_of_consume {sep s : List Char} (h : (consume sep s).isSome) :
    occursIn sep s = true := by
  cases s with
  | nil => simpa [occursIn_nil] using h
  | cons c rest => simp [occursIn_cons, h]

theorem occursIn_tail {sep : List Char} (c : Char) {rest : List Char}
    (h : occursIn sep rest = true) : occursIn sep (c :: rest) = true := by
  simp [occursIn_cons, h]

/-- `sep` always occurs in `a ++ sep ++ b`. -/
theorem occursIn_sandwich (sep a b : List Char) :
    occursIn sep (a ++ sep ++ b) = true := by
  induction a with
  | nil =>
    simpa using occursIn_of_consume (by simp [consume_self_append sep b])
  | cons c a' ih =>
    simpa using occursIn_tail c (by simpa using ih)

theorem splitOnFuel_congr (sep : List Char) (hsep : sep ≠ []) :
    ∀ (f g : Nat) (s : List Char), s.length < f → s.length < g →
      splitOnFuel sep f s = splitOnFuel sep g s := by
  intro f
  induction f with
  | zero => intro g s hf _; exact absurd hf (Nat.not_lt_zero _)
  | succ f ih =>
    intro g s hf hg
    cases g with
    | zero => exact absurd hg (Nat.not_lt_zero _)
    | succ g =>
      simp only [splitOnFuel]
      cases hc : consume sep s with
      | some r =>
        have hr : s.length = sep.length + r.length := consume_length hc
        have hsl : 0 < sep.length := List.length_pos.mpr hsep
        dsimp only
        rw [ih g r (by omega) (by omega)]
      | none =>
        cases s with
        | nil => rfl
        | cons c rest =>
          simp only [List.length_cons] at hf hg
          dsimp only
          rw [ih g rest (by omega) (by omega)]

theorem splitOn_nil (sep : List Char) : splitOn sep [] = [[]] := by
  cases sep with
  | nil => rfl
  | cons p ps => rfl

theorem splitOnFuel_succ (sep : List Char) (fuel : Nat) (s : List Char) :
    splitOnFuel sep (fuel + 1) s =
      match consume sep s with
      | some r => [] :: splitOnFuel sep fuel r
      | none =>
        match s with
        | [] => [[]]
        | c :: rest =>
          match splitOnFuel sep fuel rest with
          | [] => [[c]]
          | hd :: t => (c :: hd) :: t := rfl

theorem splitOn_eq_consume {sep s r : List Char} (hsep : sep ≠ [])
    (h : consume sep s = some r) : splitOn sep s = [] :: splitOn sep r := by
  unfold splitOn
  rw [if_neg hsep, if_neg hsep]
  rw [show splitOnFuel sep (s.length + 1) s = [] :: splitOnFuel sep s.length r from by
    rw [splitOnFuel_succ, h]]
  have hr : s.length = sep.length + r.length := consume_length h
  have hsl : 0 < sep.length := List.length_pos.mpr hsep
  rw [splitOnFuel_congr sep hsep s.length (r.length + 1) r (by omega) (by omega)]

theorem splitOn_step {sep : List Char} (hsep : sep ≠ []) {c : Char} {rest : List Char}
    (h : consume sep (c :: rest) = none) :
    splitOn sep (c :: rest) =
      match splitOn sep rest with
      | [] => [[c]]
      | hd :: t => (c :: hd) :: t := by
  have hu : splitOn sep (c :: rest) =
      match splitOnFuel sep (rest.length + 1) rest with
      | [] => [[c]]
      | hd :: t => (c :: hd) :: t := by
    unfold splitOn
    rw [if_neg hsep]
    rw [show (c :: rest).length + 1 = rest.length + 1 + 1 from by simp]
    rw [splitOnFuel_succ, h]
  rw [hu]
  unfold splitOn
  rw [if_neg hsep]

theorem splitOn_of_not_occurs {sep : List Char} (hsep : sep ≠ []) :
    ∀ s, occursIn sep s = false → splitOn sep s = [s] := by
  intro s
  induction s with
  | nil => intro _; exact splitOn_nil sep
  | cons c rest ih =>
    intro h
    rw [occursIn_cons, Bool.or_eq_false_iff] at h
    obtain ⟨h1, h2⟩ := h
    have hc : consume sep (c :: rest) = none := by
      cases hx : consume sep (c :: rest) with
      | none => rfl
      | some r => rw [hx] at h1; simp at h1
    rw [splitOn_step hsep hc, ih h2]

/-- If the occurrence of `sep` exhibited by the decomposition `a ++ sep ++ b`
is the leftmost one (no occurrence of `sep` starts inside `a`), then Python's
split consumes exactly that occurrence first. -/
theorem splitOn_leftmost {sep : List Char} (hsep : sep ≠ []) :
    ∀ (a b : List Char),
      (∀ k, k < a.length → consume sep (a.drop k ++ sep ++ b) = none) →
      splitOn sep (a ++ sep ++ b) = a :: splitOn sep b := by
  intro a
  induction a with
  | nil =>
    intro b _
    simpa using splitOn_eq_consume hsep (consume_self_append sep b)
  | cons c a' ih =>
    intro b hleft
    have hc : consume sep (c :: (a' ++ sep ++ b)) = none := by
      have := hleft 0 (by simp)
      simpa using this
    have hrec : splitOn sep (a' ++ sep ++ b) = a' :: splitOn sep b := by
      refine ih b (fun k hk => ?_)
      have := hleft (k + 1) (by simp; omega)
      simpa using this
    calc splitOn sep ((c :: a') ++ sep ++ b)
        = splitOn sep (c :: (a' ++ sep ++ b)) := by simp
      _ = _ := by rw [splitOn_step hsep hc, hrec]

/-- Combined form: leftmost occurrence in front, no occurrence behind. -/
theorem splitOn_two_chunks {sep : List Char} (hsep : sep ≠ []) (a b : List Char)
    (hleft : ∀ k, k < a.length → consume sep (a.drop k ++ sep ++ b) = none)
    (hb : occursIn sep b = false) :
    splitOn sep (a ++ sep ++ b) = [a, b] := by
  rw [splitOn_leftmost hsep a b hleft, splitOn_of_not_occurs hsep b hb]

theorem matchV3At_version {d1 d2 d3 : Char} (h1 : d1.isDigit = true)
    (h2 : d2.isDigit = true) (h3 : d3.isDigit = true) (r : List Char) :
    matchV3At ('_' :: 'v' :: d1 :: d2 :: d3 :: r) = some ['_', 'v', d1, d2, d3] := by
  simp [matchV3At, h1, h2, h3]

/-- `re.search` returns the leftmost match: if no match starts inside `a` and
`v` starts with a match, searching `a ++ v` yields that match. -/
theorem searchV3_leftmost (a : List Char) {v m : List Char}
    (hl : ∀ k, k < a.length → matchV3At ((a ++ v).drop k) = none)
    (hv : matchV3At v = some m) :
    searchV3 (a ++ v) = some m := by
  induction a with
  | nil =>
    cases v with
    | nil => cases hv
    | cons c rest => simp [searchV3, hv]
  | cons c a' ih =>
    have h0 : matchV3At (c :: (a' ++ v)) = none := by simpa using hl 0 (by simp)
    have hstep : searchV3 (c :: (a' ++ v)) = searchV3 (a' ++ v) := by
      simp [searchV3, h0]
    have hrec := ih (fun k hk => by simpa using hl (k + 1) (by simp; omega))
    simpa [hstep] using hrec

theorem le_foldl_max (l : List Nat) : ∀ init, init ≤ l.foldl max init := by
  induction l with
  | nil => intro init; exact Nat.le_refl _
  | cons x rest ih =>
    intro init
    exact Nat.le_trans (Nat.le_max_left init x) (ih (max init x))

theorem mem_le_foldl_max {l : List Nat} : ∀ {x}, x ∈ l → ∀ init, x ≤ l.foldl max init := by
  induction l with
  | nil => intro x hx; cases hx
  | cons a rest ih =>
    intro x hx init
    rcases List.mem_cons.mp hx with rfl | hmem
    · exact Nat.le_trans (Nat.le_max_right init x) (le_foldl_max rest (max init x))
    · exact ih hmem (max init a)

theorem le_maxList {l : List Nat} {x : Nat} (h : x ∈ l) : x ≤ maxList l :=
  mem_le_foldl_max h 0

theorem foldl_max_mem : ∀ (l : List Nat) (init : Nat),
    l.foldl max init ∈ l ∨ l.foldl max init = init := by
  intro l
  induction l with
  | nil => intro init; exact Or.inr rfl
  | cons x rest ih =>
    intro init
    rcases ih (max init x) with hm | hm
    · exact Or.inl (List.mem_cons_of_mem x hm)
    · simp only [List.foldl_cons, hm]
      rcases Nat.le_total init x with hle | hle
      · exact Or.inl (by simp [Nat.max_eq_right hle])
      · exact Or.inr (Nat.max_eq_left hle)

theorem maxList_mem {l : List Nat} (h : l ≠ []) : maxList l ∈ l := by
  rcases foldl_max_mem l 0 with hm | hm
  · exact hm
  · obtain ⟨x, hx⟩ := List.exists_mem_of_ne_nil l h
    have hx0 : x ≤ 0 := by
      have := le_maxList hx
      unfold maxList at this
      omega
    unfold maxList
    rw [hm]
    exact Nat.le_zero.mp hx0 ▸ hx

/-! ### Claim theorems -/

theorem foldl_setRefNamespace (name : String) :
    ∀ (ps : List (List Char)) (refs : List RefFile),
      ps.foldl (fun rs p => setRefNamespace rs p name) refs
        = refs.map (fun r => if r.path ∈ ps then { r with ns := name } else r) := by
  intro ps
  induction ps with
  | nil => intro refs; simp
  | cons p ps' ih =>
    intro refs
    rw [List.foldl_cons, ih (setRefNamespace refs p name)]
    unfold setRefNamespace
    rw [List.map_map]
    refine List.map_congr_left (fun r _ => ?_)
    by_cases hp : r.path = p
    · simp [Function.comp, hp]
    · simp [Function.comp, hp]

theorem foldl_setRefNamespace_skipMa (name : String) :
    ∀ (ps : List (List Char)) (refs : List RefFile),
      ps.foldl
        (fun rs p => if ".ma".toList.isSuffixOf p then rs else setRefNamespace rs p name)
        refs
        = refs.map (fun r =>
            if r.path ∈ ps ∧ ".ma".toList.isSuffixOf r.path = false
            then { r with ns := name } else r) := by
  intro ps
  induction ps with
  | nil => intro refs; simp
  | cons p ps' ih =>
    intro refs
    rw [List.foldl_cons]
    by_cases hma : ".ma".toList.isSuffixOf p = true
    · rw [if_pos hma, ih refs]
      refine List.map_congr_left (fun r _ => ?_)
      have hma' : ('.' :: 'm' :: 'a' :: ([] : List Char)).isSuffixOf p = true := hma
      by_cases hp : r.path = p
      · simp [hp, hma']
      · simp [hp]
    · rw [if_neg hma, ih (setRefNamespace refs p name)]
      unfold setRefNamespace
      rw [List.map_map]
      refine List.map_congr_left (fun r _ => ?_)
      have hma' : ('.' :: 'm' :: 'a' :: ([] : List Char)).isSuffixOf p = false := by
        simp only [Bool.not_eq_true] at hma
        exact hma
      by_cases hp : r.path = p
      · simp [Function.comp, hp, hma']
      · simp [Function.comp, hp]

/-- Claim C7: the namespace tool renames only when a naming convention, an
apply option and a namespace text are all provided — otherwise `validate`
pops a warning dialog, returns `False` and no reference namespace changes —
and when it proceeds every targeted reference's namespace becomes
`<convention>_<text>` (selected nodes' references for "Only Selected
Nodes", every non-`.ma` file for "All nodes"). -/
theorem namespace_manager_spec :
    (∀ (conv opt text : String) (selected : List (List Char)) (refs : List RefFile),
       conv = "" ∨ opt = "" ∨ text = "" →
       nmValidate conv opt text = (true, false)
       ∧ process_naming_convention conv opt text selected refs = refs)
    ∧ (∀ (conv opt text : String) (selected : List (List Char)) (refs : List RefFile),
       (nmValidate conv opt text).2 = true → opt = "Only Selected Nodes" →
       process_naming_convention conv opt text selected refs
         = refs.map (fun r =>
             if r.path ∈ selected then { r with ns := conv ++ "_" ++ text } else r))
    ∧ (∀ (conv opt text : String) (selected : List (List Char)) (refs : List RefFile),
       (nmValidate conv opt text).2 = true → opt = "All nodes" →
       process_naming_convention conv opt text selected refs
         = refs.map (fun r =>
             if ".ma".toList.isSuffixOf r.path = false
             then { r with ns := conv ++ "_" ++ text } else r)) := by
  refine ⟨fun conv opt text selected refs h => ?_,
          fun conv opt text selected refs h hopt => ?_,
          fun conv opt text selected refs h hopt => ?_⟩
  · have hv : nmValidate conv opt text = (true, false) := by
      unfold nmValidate
      split_ifs with h1 h2
      · rfl
      · rfl
      · tauto
    exact ⟨hv, by unfold process_naming_convention; simp [hv]⟩
  · subst hopt
    unfold process_naming_convention
    rw [h]
    simp only [if_true, if_pos rfl]
    exact foldl_setRefNamespace _ selected refs
  · subst hopt
    unfold process_naming_convention
    rw [h]
    simp only [if_true, if_neg (by decide : ¬("All nodes" : String) = "Only Selected Nodes"),
      if_pos rfl]
    rw [foldl_setRefNamespace_skipMa _ (refs.map (fun r => r.path)) refs]
    refine List.map_congr_left (fun r hr => ?_)
    have : r.path ∈ refs.map (fun r => r.path) := List.mem_map_of_mem _ hr
    simp [this]

/-- Witness for `namespace_manager_spec`: a missing convention blocks the
rename and leaves the references untouched; with everything filled in, the
selected reference and (for "All nodes") the non-`.ma` reference receive
`<convention>_<text>`. -/
theorem namespace_manager_spec_witness :
    (nmValidate "" "All nodes" "x" = (true, false)
      ∧ process_naming_convention "" "All nodes" "x" []
          [⟨"a.abc".toList, "old"⟩] = [⟨"a.abc".toList, "old"⟩])
    ∧ process_naming_convention "MMtrackalembic" "Only Selected Nodes" "char"
        ["p.abc".toList] [⟨"p.abc".toList, "old"⟩]
        = [⟨"p.abc".toList, "MMtrackalembic_char"⟩]
    ∧ process_naming_convention "fxgeo" "All nodes" "rock" []
        [⟨"a.ma".toList, "o1"⟩, ⟨"b.abc".toList, "o2"⟩]
        = [⟨"a.ma".toList, "o1"⟩, ⟨"b.abc".toList, "fxgeo_rock"⟩] := by
  refine ⟨namespace_manager_spec.1 "" "All nodes" "x" _ _ (Or.inl rfl), ?_, ?_⟩
  · rw [namespace_manager_spec.2.1 "MMtrackalembic" "Only Selected Nodes" "char"
      ["p.abc".toList] [⟨"p.abc".toList, "old"⟩] rfl rfl]
    decide
  · rw [namespace_manager_spec.2.2 "fxgeo" "All nodes" "rock" []
      [⟨"a.ma".toList, "o1"⟩, ⟨"b.abc".toList, "o2"⟩] rfl rfl]
    decide

/-- Claim C3: for a loaded file whose `cmds.file` return value ends in
`.abc`, the offset written to every reference node bearing an `offset`
attribute is 0.0 when some node of the new reference has an
`abc_start_frame` attribute equal to the playback minimum, and otherwise is
chosen by the two-way comparison of the playback minimum against the start
frame computed from the cache's time sampling. -/
theorem abc_offset_reconciliation (file_path : List Char) (nodes : List RefNode)
    (archive : AbcArchive) (first_frame : ℤ)
    (habc : ".abc".toList.isSuffixOf file_path = true) :
    ((∃ n ∈ nodes, n.hasAbcStart = true ∧ n.abcStart = (first_frame : ℚ)) →
       postLoadOffsets file_path nodes archive first_frame
         = some (nodes.map (fun n => if n.hasOffset then { n with offset := 0 } else n)))
    ∧ (∀ s : ℚ, (∀ n ∈ nodes, n.hasAbcStart = true → ¬ n.abcStart = (first_frame : ℚ)) →
       cacheStartFrame archive = some s →
       postLoadOffsets file_path nodes archive first_frame
         = some (nodes.map (fun n =>
             if n.hasOffset
             then { n with offset :=
                      if (first_frame : ℚ) ≠ s then (first_frame : ℚ) else s }
             else n))) := by
  constructor
  · rintro ⟨n, hn, h1, h2⟩
    have hatr : atribOf first_frame nodes = true := by
      unfold atribOf
      rw [List.any_eq_true]
      exact ⟨n, hn, by simp [h1, h2]⟩
    unfold postLoadOffsets
    rw [if_pos habc]
    unfold abcOffsetOf
    rw [hatr]
    simp [applyOffsets]
  · intro s hnone hc
    have hatr : atribOf first_frame nodes = false := by
      unfold atribOf
      rw [List.any_eq_false]
      intro n hn
      simp only [Bool.and_eq_true, decide_eq_true_eq, not_and]
      exact hnone n hn
    unfold postLoadOffsets
    rw [if_pos habc]
    unfold abcOffsetOf
    rw [hatr, hc]
    simp [applyOffsets, abcOffsetFinal]

/-- Witness for `abc_offset_reconciliation`: a node whose `abc_start_frame`
matches playback minimum 1001 gets offset 0; without the attribute, the
offset comes from the comparison against the cache start frame 120. -/
theorem abc_offset_reconciliation_witness :
    postLoadOffsets "scene.abc".toList
        ([⟨"n".toList, true, ((1001 : ℤ) : ℚ), true, 0⟩] : List RefNode)
        ⟨[⟨true, 5⟩], 3⟩ 1001
      = some (([⟨"n".toList, true, ((1001 : ℤ) : ℚ), true, 0⟩] : List RefNode).map
          (fun n => if n.hasOffset then { n with offset := 0 } else n))
    ∧ postLoadOffsets "scene.abc".toList
        ([⟨"n".toList, false, 0, true, 7⟩] : List RefNode) ⟨[⟨true, 5⟩], 3⟩ 1001
      = some (([⟨"n".toList, false, 0, true, 7⟩] : List RefNode).map
          (fun n => if n.hasOffset
            then { n with offset :=
                     if ((1001 : ℤ) : ℚ) ≠ 120 then ((1001 : ℤ) : ℚ) else 120 }
            else n)) := by
  constructor
  · exact (abc_offset_reconciliation _ _ _ 1001 (by decide)).1
      ⟨⟨"n".toList, true, ((1001 : ℤ) : ℚ), true, 0⟩, List.mem_singleton.mpr rfl,
        rfl, rfl⟩
  · refine (abc_offset_reconciliation _ _ _ 1001 (by decide)).2 120 ?_ ?_
    · intro n hn hfalse
      rw [List.mem_singleton] at hn
      subst hn
      simp at hfalse
    · unfold cacheStartFrame tempStartFrame
      norm_num

/-- Claim C1: `set_version` returns `max(versions) + 1` when at least one
publish record's `code` contains the (nonempty) extracted semantic name and
a `_v<digits>` token, and returns 1 when the tracking query returns no
records or no record yields a version number. -/
theorem set_version_next_version (pn : List Char) (codes : List (List Char)) :
    (codes = [] → set_version pn codes = 1)
    ∧ ((∀ c ∈ codes, codeVersion (extractName pn) c = none) → set_version pn codes = 1)
    ∧ ((∃ c ∈ codes, (codeVersion (extractName pn) c).isSome = true) →
        (∃ c ∈ codes, codeVersion (extractName pn) c
           = some (maxList (codes.filterMap (codeVersion (extractName pn)))))
        ∧ (∀ c ∈ codes, ∀ v, codeVersion (extractName pn) c = some v →
             v ≤ maxList (codes.filterMap (codeVersion (extractName pn))))
        ∧ set_version pn codes
            = maxList (codes.filterMap (codeVersion (extractName pn))) + 1) := by
  refine ⟨fun h => by subst h; rfl, fun h => ?_, fun h => ?_⟩
  · unfold set_version
    cases codes with
    | nil => rfl
    | cons c cs =>
      have hnil : (c :: cs).filterMap (codeVersion (extractName pn)) = [] :=
        List.filterMap_eq_nil_iff.mpr h
      simp [hnil]
  · obtain ⟨c, hc, hs⟩ := h
    obtain ⟨v, hv⟩ := Option.isSome_iff_exists.mp hs
    have hvmem : v ∈ codes.filterMap (codeVersion (extractName pn)) :=
      List.mem_filterMap.mpr ⟨c, hc, hv⟩
    have hne : codes.filterMap (codeVersion (extractName pn)) ≠ [] :=
      List.ne_nil_of_mem hvmem
    refine ⟨List.mem_filterMap.mp (maxList_mem hne), ?_, ?_⟩
    · intro c' hc' v' hv'
      exact le_maxList (List.mem_filterMap.mpr ⟨c', hc', hv'⟩)
    · unfold set_version
      cases codes with
      | nil => exact absurd hc (by simp)
      | cons a as =>
        have hemp : ((a :: as).filterMap (codeVersion (extractName pn))).isEmpty = false := by
          rw [List.isEmpty_eq_false]
          exact hne
        simp [hemp]

/-- Witness for `set_version_next_version`: an empty query yields 1, a query
with no matching code yields 1, and codes carrying `_v003` next to an
unrelated record yield 4. -/
theorem set_version_next_version_witness :
    set_version "pub1_MMtrackalembic_boulder_v001".toList [] = 1
    ∧ set_version "pub1_MMtrackalembic_boulder_v001".toList ["unrelated".toList] = 1
    ∧ set_version "pub1_MMtrackalembic_boulder_v001".toList
        ["x_MMtrackalembic_boulder_v003.abc".toList, "other".toList] = 4 :=
  ⟨(set_version_next_version "pub1_MMtrackalembic_boulder_v001".toList []).1 rfl,
   (set_version_next_version "pub1_MMtrackalembic_boulder_v001".toList
      ["unrelated".toList]).2.1 (by decide),
   (((set_version_next_version "pub1_MMtrackalembic_boulder_v001".toList
      ["x_MMtrackalembic_boulder_v003.abc".toList, "other".toList]).2.2
      (by decide)).2.2).trans (by decide)⟩

theorem renameNode_roundtrip (nodes : List (List Char)) (old new : List Char)
    (h : new ∉ nodes ∨ new = old) :
    renameNode (renameNode nodes old new) new old = nodes := by
  unfold renameNode
  rw [List.map_map]
  rcases h with h | h
  · have hpt : ∀ n ∈ nodes,
        ((fun n => if n = new then old else n) ∘ fun n => if n = old then new else n) n
          = id n := by
      intro n hn
      by_cases ho : n = old
      · simp [Function.comp, ho]
      · have hne : n ≠ new := fun hx => h (hx ▸ hn)
        simp [Function.comp, ho, hne]
    rw [List.map_congr_left hpt, List.map_id]
  · subst h
    have hpt : ∀ n ∈ nodes,
        ((fun n => if n = new then new else n) ∘ fun n => if n = new then new else n) n
          = id n := by
      intro n _
      by_cases ho : n = new
      · simp [Function.comp, ho]
      · simp [Function.comp, ho]
    rw [List.map_congr_left hpt, List.map_id]

/-- Evaluation of `cameraPublish` for a non-referenced camera with a
successful export, given which naming-convention token the list
comprehension finds first. -/
theorem cameraPublish_not_referenced (cam path : List Char) (os_sep : Char)
    (s e : ℚ) (scene_nodes : List (List Char)) {conv : List Char}
    (hh : (namings.filter (fun nm => occursIn nm cam)).head? = some conv) :
    cameraPublish cam path os_sep s e false true scene_nodes
      = some ⟨renameNode (renameNode scene_nodes cam ((splitOn conv cam).getLastD []))
                ((splitOn conv cam).getLastD []) cam,
              [⟨s, e, (splitOn conv cam).getLastD [],
                 path.map (fun c => if c = os_sep then '/' else c)⟩],
              some alembicCache, true⟩ := by
  unfold cameraPublish
  rw [hh]
  rfl

/-- If some naming token occurs in `name`, the `filter` in the publish
methods is non-empty, so indexing `[0]` does not raise. -/
theorem namings_filter_head {name : List Char}
    (h : ∃ nm ∈ namings, occursIn nm name = true) :
    ∃ conv, (namings.filter (fun nm => occursIn nm name)).head? = some conv := by
  obtain ⟨nm, hnm, hocc⟩ := h
  have hne : namings.filter (fun nm => occursIn nm name) ≠ [] := by
    rw [Ne, List.filter_eq_nil_iff]
    push_neg
    exact ⟨nm, hnm, by simp [hocc]⟩
  cases hf : (namings.filter (fun nm => occursIn nm name)).head? with
  | none => exact absurd (List.head?_eq_none_iff.mp hf) hne
  | some conv => exact ⟨conv, rfl⟩

/-- Unfolding equation for the cons case of `meshLoop`. -/
theorem meshLoop_cons (obj file : List Char) (s e : ℚ) (m : MeshAssembly)
    (rest : List MeshAssembly) (nodes : List (List Char)) (jobs : List AbcJob) :
    meshLoop obj file s e (m :: rest) nodes jobs =
      if m.hasMesh = false then meshLoop obj file s e rest nodes jobs
      else if m.name = obj then
        (if m.isReferenced = true then
          (if m.exportOk = true then
            meshLoop obj file s e rest nodes (jobs ++ [⟨s, e, m.name, file⟩])
          else .early nodes (jobs ++ [⟨s, e, m.name, file⟩]))
        else
          match (namings.filter (fun nm => occursIn nm m.name)).head? with
          | none => .crash
          | some conv =>
            if m.exportOk = true then
              meshLoop obj file s e rest
                (renameNode (renameNode nodes m.name ((splitOn conv m.name).getLastD []))
                  ((splitOn conv m.name).getLastD []) m.name)
                (jobs ++ [⟨s, e, (splitOn conv m.name).getLastD [], file⟩])
            else .early (renameNode nodes m.name ((splitOn conv m.name).getLastD []))
              (jobs ++ [⟨s, e, (splitOn conv m.name).getLastD [], file⟩]))
      else meshLoop obj file s e rest nodes jobs := rfl

/-- The mesh export loop with every export succeeding and a naming token
available for every matching non-referenced assembly: it completes, appends
only jobs covering the frame range `s..e` aimed at `file`, and appends at
least one job if some assembly matches the collected object. -/
theorem meshLoop_all_ok (obj file : List Char) (s e : ℚ) :
    ∀ (assems : List MeshAssembly) (nodes : List (List Char)) (jobs : List AbcJob),
      (∀ m ∈ assems, m.exportOk = true) →
      (∀ m ∈ assems, m.hasMesh = true → m.name = obj → m.isReferenced = false →
         ∃ nm ∈ namings, occursIn nm m.name = true) →
      ∃ nodes' extra,
        meshLoop obj file s e assems nodes jobs = .done nodes' (jobs ++ extra)
        ∧ (∀ j ∈ extra, j.startF = s ∧ j.endF = e ∧ j.file = file)
        ∧ ((∃ m ∈ assems, m.hasMesh = true ∧ m.name = obj) → extra ≠ []) := by
  intro assems
  induction assems with
  | nil =>
    intro nodes jobs _ _
    exact ⟨nodes, [], by simp [meshLoop], by simp, by simp⟩
  | cons m rest ih =>
    intro nodes jobs hex hconv
    have hextl : ∀ x ∈ rest, x.exportOk = true := fun x hx => hex x (.tail _ hx)
    have hconvtl : ∀ x ∈ rest, x.hasMesh = true → x.name = obj →
        x.isReferenced = false → ∃ nm ∈ namings, occursIn nm x.name = true :=
      fun x hx => hconv x (.tail _ hx)
    by_cases hm : m.hasMesh = true
    · have hmn : ¬ m.hasMesh = false := by simp [hm]
      by_cases hname : m.name = obj
      · by_cases href : m.isReferenced = true
        · obtain ⟨n', ex, heq, hp, _⟩ :=
            ih nodes (jobs ++ [⟨s, e, m.name, file⟩]) hextl hconvtl
          refine ⟨n', ⟨s, e, m.name, file⟩ :: ex, ?_, ?_, fun _ => by simp⟩
          · rw [meshLoop_cons, if_neg hmn, if_pos hname, if_pos href,
              if_pos (hex m (.head rest)), heq]
            simp
          · intro j hj
            rcases List.mem_cons.mp hj with rfl | hj'
            · exact ⟨rfl, rfl, rfl⟩
            · exact hp j hj'
        · have href' : m.isReferenced = false := by
            revert href; cases m.isReferenced <;> simp
          obtain ⟨conv, hh⟩ := namings_filter_head (hconv m (.head rest) hm hname href')
          obtain ⟨n', ex, heq, hp, _⟩ :=
            ih (renameNode (renameNode nodes m.name ((splitOn conv m.name).getLastD []))
                 ((splitOn conv m.name).getLastD []) m.name)
               (jobs ++ [⟨s, e, (splitOn conv m.name).getLastD [], file⟩]) hextl hconvtl
          refine ⟨n', ⟨s, e, (splitOn conv m.name).getLastD [], file⟩ :: ex, ?_, ?_,
            fun _ => by simp⟩
          · rw [meshLoop_cons, if_neg hmn, if_pos hname, if_neg href, hh]
            dsimp only
            rw [if_pos (hex m (.head rest)), heq]
            simp
          · intro j hj
            rcases List.mem_cons.mp hj with rfl | hj'
            · exact ⟨rfl, rfl, rfl⟩
            · exact hp j hj'
      · obtain ⟨n', ex, heq, hp, hne⟩ := ih nodes jobs hextl hconvtl
        refine ⟨n', ex, ?_, hp, ?_⟩
        · rw [meshLoop_cons, if_neg hmn, if_neg hname]
          exact heq
        · rintro ⟨x, hx, h1, h2⟩
          rcases List.mem_cons.mp hx with rfl | hx'
          · exact absurd h2 hname
          · exact hne ⟨x, hx', h1, h2⟩
    · have hmf : m.hasMesh = false := by
        revert hm; cases m.hasMesh <;> simp
      obtain ⟨n', ex, heq, hp, hne⟩ := ih nodes jobs hextl hconvtl
      refine ⟨n', ex, ?_, hp, ?_⟩
      · rw [meshLoop_cons, if_pos hmf]
        exact heq
      · rintro ⟨x, hx, h1, h2⟩
        rcases List.mem_cons.mp hx with rfl | hx'
        · exact absurd h1 hm
        · exact hne ⟨x, hx', h1, h2⟩

/-- Claim C6: with the export command succeeding, both publish methods run
an `AbcExport` job covering exactly the playback range (`playbackOptions`
min to max, `int()`-truncated in the mesh plugin), set the item's
`publish_type` to "Alembic Cache", and hand off to the base publish plugin
to register the file. -/
theorem publish_export_spec :
    (∀ (cam path : List Char) (os_sep : Char) (s e : ℚ) (is_ref : Bool)
        (scene_nodes : List (List Char)),
       (is_ref = true ∨ ∃ nm ∈ namings, occursIn nm cam = true) →
       ∃ eff, cameraPublish cam path os_sep s e is_ref true scene_nodes = some eff
         ∧ eff.jobs.length = 1
         ∧ (∀ j ∈ eff.jobs, j.startF = s ∧ j.endF = e)
         ∧ eff.publishType = some alembicCache
         ∧ eff.baseCalled = true)
    ∧ (∀ (obj path : List Char) (pmin pmax : ℚ) (assems : List MeshAssembly)
        (scene_nodes : List (List Char)),
       (∀ m ∈ assems, m.exportOk = true) →
       (∀ m ∈ assems, m.hasMesh = true → m.name = obj → m.isReferenced = false →
          ∃ nm ∈ namings, occursIn nm m.name = true) →
       (∃ m ∈ assems, m.hasMesh = true ∧ m.name = obj) →
       ∃ eff, meshPublish obj path pmin pmax assems scene_nodes = some eff
         ∧ eff.jobs ≠ []
         ∧ (∀ j ∈ eff.jobs,
              j.startF = ((pyInt pmin : ℤ) : ℚ) ∧ j.endF = ((pyInt pmax : ℤ) : ℚ))
         ∧ eff.publishType = some alembicCache
         ∧ eff.baseCalled = true) := by
  constructor
  · intro cam path os_sep s e is_ref scene_nodes h
    cases is_ref with
    | true =>
      refine ⟨⟨scene_nodes, [⟨s, e, cam, path.map (fun c => if c = os_sep then '/' else c)⟩],
        some alembicCache, true⟩, rfl, rfl, ?_, rfl, rfl⟩
      intro j hj
      rw [List.mem_singleton] at hj
      subst hj
      exact ⟨rfl, rfl⟩
    | false =>
      have hex : ∃ nm ∈ namings, occursIn nm cam = true := by
        rcases h with h | h
        · cases h
        · exact h
      obtain ⟨conv, hh⟩ := namings_filter_head hex
      refine ⟨_, cameraPublish_not_referenced cam path os_sep s e scene_nodes hh,
        rfl, ?_, rfl, rfl⟩
      intro j hj
      rw [List.mem_singleton] at hj
      subst hj
      exact ⟨rfl, rfl⟩
  · intro obj path pmin pmax assems scene_nodes hex hconv hmatch
    obtain ⟨n', ex, heq, hp, hne⟩ :=
      meshLoop_all_ok obj (path.map (fun c => if c = '\\' then '/' else c))
        ((pyInt pmin : ℤ) : ℚ) ((pyInt pmax : ℤ) : ℚ) assems scene_nodes [] hex hconv
    refine ⟨⟨n', [] ++ ex, some alembicCache, true⟩, ?_, ?_, ?_, rfl, rfl⟩
    · unfold meshPublish
      rw [heq]
    · have := hne (by
        obtain ⟨m, hm, h1, h2⟩ := hmatch
        exact ⟨m, hm, h1, h2⟩)
      simpa using this
    · intro j hj
      rw [List.nil_append] at hj
      exact ⟨(hp j hj).1, (hp j hj).2.1⟩

/-- Witness for `publish_export_spec`: a concrete non-referenced camera and
a one-assembly mesh scene, with the hypotheses decided. -/
theorem publish_export_spec_witness :
    ((cameraPublish "fxgeo_cam1".toList "out.abc".toList '\\' 1001 1100 false true
        ["fxgeo_cam1".toList]).map
          (fun eff => (eff.publishType, eff.baseCalled, eff.jobs.length)))
      = some (some alembicCache, true, 1)
    ∧ ((meshPublish "fxgeo_rock".toList "out.abc".toList 1001 1100
          [⟨"fxgeo_rock".toList, true, false, true⟩] ["fxgeo_rock".toList]).map
          (fun eff => (eff.publishType, eff.baseCalled)))
      = some (some alembicCache, true) := by
  constructor
  · obtain ⟨eff, heq, h1, _, h3, h4⟩ :=
      publish_export_spec.1 "fxgeo_cam1".toList "out.abc".toList '\\' 1001 1100 false
        ["fxgeo_cam1".toList] (Or.inr (by decide))
    rw [heq]
    simp [h1, h3, h4]
  · obtain ⟨eff, heq, _, _, h3, h4⟩ :=
      publish_export_spec.2 "fxgeo_rock".toList "out.abc".toList 1001 1100
        [⟨"fxgeo_rock".toList, true, false, true⟩] ["fxgeo_rock".toList]
        (by intro m hm; rw [List.mem_singleton] at hm; subst hm; rfl)
        (by intro m hm _ _ _; rw [List.mem_singleton] at hm; subst hm; decide)
        ⟨⟨"fxgeo_rock".toList, true, false, true⟩, List.mem_singleton.mpr rfl, rfl, rfl⟩
    rw [heq]
    simp [h3, h4]

/-- The mesh export loop leaves the scene's node names unchanged when every
export succeeds and no stripped name collides with an existing node: each
iteration renames and then renames back. -/
theorem meshLoop_nodes_invariant (obj file : List Char) (s e : ℚ) :
    ∀ (assems : List MeshAssembly) (nodes : List (List Char)) (jobs : List AbcJob),
      (∀ m ∈ assems, m.exportOk = true) →
      (∀ m ∈ assems, m.hasMesh = true → m.name = obj → m.isReferenced = false →
         ∃ nm ∈ namings, occursIn nm m.name = true) →
      (∀ m ∈ assems, m.hasMesh = true → m.name = obj → m.isReferenced = false →
         ∀ conv, (namings.filter (fun nm => occursIn nm m.name)).head? = some conv →
           ((splitOn conv m.name).getLastD [] ∉ nodes
             ∨ (splitOn conv m.name).getLastD [] = m.name)) →
      ∃ jobs', meshLoop obj file s e assems nodes jobs = .done nodes jobs' := by
  intro assems
  induction assems with
  | nil => intro nodes jobs _ _ _; exact ⟨jobs, by simp [meshLoop]⟩
  | cons m rest ih =>
    intro nodes jobs hex hconv hsafe
    have hextl : ∀ x ∈ rest, x.exportOk = true := fun x hx => hex x (.tail _ hx)
    have hconvtl : ∀ x ∈ rest, x.hasMesh = true → x.name = obj →
        x.isReferenced = false → ∃ nm ∈ namings, occursIn nm x.name = true :=
      fun x hx => hconv x (.tail _ hx)
    have hsafetl : ∀ x ∈ rest, x.hasMesh = true → x.name = obj →
        x.isReferenced = false →
        ∀ conv, (namings.filter (fun nm => occursIn nm x.name)).head? = some conv →
          ((splitOn conv x.name).getLastD [] ∉ nodes
            ∨ (splitOn conv x.name).getLastD [] = x.name) :=
      fun x hx => hsafe x (.tail _ hx)
    by_cases hm : m.hasMesh = true
    · have hmn : ¬ m.hasMesh = false := by simp [hm]
      by_cases hname : m.name = obj
      · by_cases href : m.isReferenced = true
        · obtain ⟨jobs', heq⟩ :=
            ih nodes (jobs ++ [⟨s, e, m.name, file⟩]) hextl hconvtl hsafetl
          refine ⟨jobs', ?_⟩
          rw [meshLoop_cons, if_neg hmn, if_pos hname, if_pos href,
            if_pos (hex m (.head rest))]
          exact heq
        · have href' : m.isReferenced = false := by
            revert href; cases m.isReferenced <;> simp
          obtain ⟨conv, hh⟩ := namings_filter_head (hconv m (.head rest) hm hname href')
          have hrt : renameNode
              (renameNode nodes m.name ((splitOn conv m.name).getLastD []))
              ((splitOn conv m.name).getLastD []) m.name = nodes :=
            renameNode_roundtrip nodes m.name _
              (hsafe m (.head rest) hm hname href' conv hh)
          obtain ⟨jobs', heq⟩ :=
            ih nodes (jobs ++ [⟨s, e, (splitOn conv m.name).getLastD [], file⟩])
              hextl hconvtl hsafetl
          refine ⟨jobs', ?_⟩
          rw [meshLoop_cons, if_neg hmn, if_pos hname, if_neg href, hh]
          dsimp only
          rw [if_pos (hex m (.head rest)), hrt]
          exact heq
      · obtain ⟨jobs', heq⟩ := ih nodes jobs hextl hconvtl hsafetl
        refine ⟨jobs', ?_⟩
        rw [meshLoop_cons, if_neg hmn, if_neg hname]
        exact heq
    · have hmf : m.hasMesh = false := by
        revert hm; cases m.hasMesh <;> simp
      obtain ⟨jobs', heq⟩ := ih nodes jobs hextl hconvtl hsafetl
      refine ⟨jobs', ?_⟩
      rw [meshLoop_cons, if_pos hmf]
      exact heq

/-- Claim C9: for a non-referenced node, a successful publish leaves the
node's scene name unchanged — the rename that strips the naming-convention
token before `AbcExport` and the rename back afterwards form a round trip
(provided the stripped name does not already belong to another node, in
which case the host would not perform a plain rename at all). -/
theorem publish_rename_roundtrip :
    (∀ (cam path : List Char) (os_sep : Char) (s e : ℚ)
        (scene_nodes : List (List Char)) (conv : List Char),
       (namings.filter (fun nm => occursIn nm cam)).head? = some conv →
       ((splitOn conv cam).getLastD [] ∉ scene_nodes
         ∨ (splitOn conv cam).getLastD [] = cam) →
       ∃ eff, cameraPublish cam path os_sep s e false true scene_nodes = some eff
         ∧ eff.sceneNodes = scene_nodes)
    ∧ (∀ (obj path : List Char) (pmin pmax : ℚ) (assems : List MeshAssembly)
        (scene_nodes : List (List Char)),
       (∀ m ∈ assems, m.exportOk = true) →
       (∀ m ∈ assems, m.hasMesh = true → m.name = obj → m.isReferenced = false →
          ∃ nm ∈ namings, occursIn nm m.name = true) →
       (∀ m ∈ assems, m.hasMesh = true → m.name = obj → m.isReferenced = false →
          ∀ conv, (namings.filter (fun nm => occursIn nm m.name)).head? = some conv →
            ((splitOn conv m.name).getLastD [] ∉ scene_nodes
              ∨ (splitOn conv m.name).getLastD [] = m.name)) →
       ∃ eff, meshPublish obj path pmin pmax assems scene_nodes = some eff
         ∧ eff.sceneNodes = scene_nodes) := by
  constructor
  · intro cam path os_sep s e scene_nodes conv hh hsafe
    exact ⟨_, cameraPublish_not_referenced cam path os_sep s e scene_nodes hh,
      renameNode_roundtrip scene_nodes cam _ hsafe⟩
  · intro obj path pmin pmax assems scene_nodes hex hconv hsafe
    obtain ⟨jobs', heq⟩ :=
      meshLoop_nodes_invariant obj (path.map (fun c => if c = '\\' then '/' else c))
        ((pyInt pmin : ℤ) : ℚ) ((pyInt pmax : ℤ) : ℚ) assems scene_nodes []
        hex hconv hsafe
    exact ⟨⟨scene_nodes, jobs', some alembicCache, true⟩,
      by unfold meshPublish; rw [heq], rfl⟩

/-- Witness for `publish_rename_roundtrip`: a camera scene and a
one-assembly mesh scene whose node names are unchanged by a successful
publish. -/
theorem publish_rename_roundtrip_witness :
    ((cameraPublish "fxgeo_cam1".toList "out.abc".toList '\\' 1001 1100 false true
        ["fxgeo_cam1".toList, "other".toList]).map PubEffects.sceneNodes)
      = some ["fxgeo_cam1".toList, "other".toList]
    ∧ ((meshPublish "fxgeo_rock".toList "out.abc".toList 1001 1100
        [⟨"fxgeo_rock".toList, true, false, true⟩]
        ["fxgeo_rock".toList]).map PubEffects.sceneNodes)
      = some ["fxgeo_rock".toList] := by
  constructor
  · obtain ⟨eff, heq, hn⟩ := publish_rename_roundtrip.1 "fxgeo_cam1".toList
      "out.abc".toList '\\' 1001 1100 ["fxgeo_cam1".toList, "other".toList]
      "fxgeo_".toList (by decide) (Or.inl (by decide))
    rw [heq]
    simp [hn]
  · obtain ⟨eff, heq, hn⟩ := publish_rename_roundtrip.2 "fxgeo_rock".toList
      "out.abc".toList 1001 1100 [⟨"fxgeo_rock".toList, true, false, true⟩]
      ["fxgeo_rock".toList]
      (by intro m hm; rw [List.mem_singleton] at hm; subst hm; rfl)
      (by intro m hm _ _ _; rw [List.mem_singleton] at hm; subst hm; decide)
      (by
        intro m hm _ _ _ conv hh
        rw [List.mem_singleton] at hm
        subst hm
        dsimp only at hh
        have hfe : (namings.filter
            (fun nm => occursIn nm ("fxgeo_rock".toList))).head?
              = some ("fxgeo_".toList) := by decide
        rw [hfe] at hh
        have hcv : ("fxgeo_".toList : List Char) = conv := Option.some.inj hh
        subst hcv
        left
        decide)
    rw [heq]
    simp [hn]

theorem foldl_extractStep_no_fire (pn : List Char) :
    ∀ (l : List (List Char)) (acc : Option (List Char) × Bool),
      (∀ e ∈ l, occursIn e pn = false) →
      l.foldl (extractNameStep pn) acc = acc := by
  intro l
  induction l with
  | nil => intro acc _; rfl
  | cons e l' ih =>
    intro acc h
    rw [List.foldl_cons]
    have he : extractNameStep pn acc e = acc := by
      unfold extractNameStep
      rw [if_neg (by simp [h e (.head l')])]
    rw [he]
    exact ih acc (fun x hx => h x (.tail _ hx))

/-- When exactly one entity token of a duplicate-free list occurs in the
publish name, the extraction loop reduces to that token's single step
(the steps of non-occurring tokens are identities). -/
theorem foldl_extractStep_single (pn ent : List Char) :
    ∀ (l : List (List Char)) (acc : Option (List Char) × Bool),
      l.Nodup → ent ∈ l →
      (∀ e ∈ l, e ≠ ent → occursIn e pn = false) →
      l.foldl (extractNameStep pn) acc = extractNameStep pn acc ent := by
  intro l
  induction l with
  | nil => intro acc _ hmem _; cases hmem
  | cons e l' ih =>
    intro acc hnd hmem hoth
    rcases List.mem_cons.mp hmem with heq | hmem'
    · subst heq
      rw [List.foldl_cons]
      have hl' : ∀ x ∈ l', occursIn x pn = false := by
        intro x hx
        have hxne : x ≠ ent := by
          intro hxe
          subst hxe
          exact (List.nodup_cons.mp hnd).1 hx
        exact hoth x (.tail _ hx) hxne
      exact foldl_extractStep_no_fire pn l' _ hl'
    · have hene : e ≠ ent := by
        intro hee
        subst hee
        exact (List.nodup_cons.mp hnd).1 hmem'
      rw [List.foldl_cons]
      have he : extractNameStep pn acc e = acc := by
        unfold extractNameStep
        rw [if_neg (by simp [hoth e (.head l') hene])]
      rw [he]
      exact ih acc (List.nodup_cons.mp hnd).2 hmem'
        (fun x hx hxne => hoth x (.tail _ hx) hxne)

theorem matchV3At_of_consume {d1 d2 d3 : Char} (h1 : d1.isDigit = true)
    (h2 : d2.isDigit = true) (h3 : d3.isDigit = true) {s r : List Char}
    (h : consume ['_', 'v', d1, d2, d3] s = some r) :
    matchV3At s = some ['_', 'v', d1, d2, d3] := by
  have hs := (consume_eq_some_iff _ s r).mp h
  subst hs
  exact matchV3At_version h1 h2 h3 r

/-- Claim C2: for a publish name of the form
`<prefix><entity><base>_v<ddd>` where `<entity>` is the one geo entity
token occurring in the name (at the exhibited position first, with no later
occurrence and no earlier `_v<ddd>` match), `set_version`'s loop extracts
`<entity-without-leading-underscore><base>_`; and whenever the token occurs
but no three-digit version token follows it, "Naming Convention error" is
logged and the extracted name is the empty string. -/
theorem extract_name_spec :
    (∀ (pre base ent : List Char) (d1 d2 d3 : Char),
       ent ∈ GEO_CONSTANT_ENTITIES →
       d1.isDigit = true → d2.isDigit = true → d3.isDigit = true →
       (∀ e ∈ GEO_CONSTANT_ENTITIES, e ≠ ent →
          occursIn e (pre ++ ent ++ (base ++ ['_', 'v', d1, d2, d3])) = false) →
       (∀ k, k < pre.length →
          consume ent (pre.drop k ++ ent ++ (base ++ ['_', 'v', d1, d2, d3])) = none) →
       occursIn ent (base ++ ['_', 'v', d1, d2, d3]) = false →
       (∀ k, k < base.length →
          matchV3At ((base ++ ['_', 'v', d1, d2, d3]).drop k) = none) →
       extractNameLog (pre ++ ent ++ (base ++ ['_', 'v', d1, d2, d3]))
         = (some (ent.drop 1 ++ base ++ ['_']), false))
    ∧ (∀ (pn ent : List Char),
       ent ∈ GEO_CONSTANT_ENTITIES →
       occursIn ent pn = true →
       (∀ e ∈ GEO_CONSTANT_ENTITIES, e ≠ ent → occursIn e pn = false) →
       searchV3 ((splitOn ent pn).getLastD []) = none →
       extractNameLog pn = (some [], true)) := by
  constructor
  · intro pre base ent d1 d2 d3 hent h1 h2 h3 hother hleft hnb hv3
    have hentne : ent ≠ [] :=
      (by decide : ∀ e ∈ GEO_CONSTANT_ENTITIES, e ≠ []) ent hent
    have hocc : occursIn ent (pre ++ ent ++ (base ++ ['_', 'v', d1, d2, d3])) = true :=
      occursIn_sandwich ent pre _
    have hsplit : splitOn ent (pre ++ ent ++ (base ++ ['_', 'v', d1, d2, d3]))
        = [pre, base ++ ['_', 'v', d1, d2, d3]] :=
      splitOn_two_chunks hentne pre _ hleft hnb
    have hlast : (splitOn ent (pre ++ ent ++ (base ++ ['_', 'v', d1, d2, d3]))).getLastD []
        = base ++ ['_', 'v', d1, d2, d3] := by
      rw [hsplit]
      rfl
    have hv5 : searchV3 (base ++ ['_', 'v', d1, d2, d3])
        = some ['_', 'v', d1, d2, d3] :=
      searchV3_leftmost base hv3 (matchV3At_version h1 h2 h3 [])
    have hleftv5 : ∀ k, k < base.length →
        consume ['_', 'v', d1, d2, d3]
          (base.drop k ++ ['_', 'v', d1, d2, d3] ++ []) = none := by
      intro k hk
      rw [List.append_nil]
      cases hx : consume ['_', 'v', d1, d2, d3] (base.drop k ++ ['_', 'v', d1, d2, d3]) with
      | none => rfl
      | some r =>
        exfalso
        have hm := matchV3At_of_consume h1 h2 h3 hx
        have hzero := hv3 k hk
        rw [List.drop_append_of_le_length (Nat.le_of_lt hk)] at hzero
        rw [hm] at hzero
        cases hzero
    have hsplitv5 : splitOn ['_', 'v', d1, d2, d3]
        (base ++ ['_', 'v', d1, d2, d3] ++ []) = [base, []] :=
      splitOn_two_chunks (by simp) base [] hleftv5 rfl
    have hhead : (splitOn ['_', 'v', d1, d2, d3]
        (base ++ ['_', 'v', d1, d2, d3])).headD [] = base := by
      rw [List.append_nil] at hsplitv5
      rw [hsplitv5]
      rfl
    have hstep : extractNameStep (pre ++ ent ++ (base ++ ['_', 'v', d1, d2, d3]))
        (none, false) ent = (some (ent.drop 1 ++ base ++ ['_']), false) := by
      unfold extractNameStep
      rw [if_pos hocc, hlast, hv5]
      dsimp only
      rw [hhead]
    unfold extractNameLog
    rw [foldl_extractStep_single _ ent GEO_CONSTANT_ENTITIES (none, false)
      (by decide) hent hother, hstep]
  · intro pn ent hent hocc hother hnov
    unfold extractNameLog
    rw [foldl_extractStep_single pn ent GEO_CONSTANT_ENTITIES (none, false)
      (by decide) hent hother]
    unfold extractNameStep
    rw [if_pos hocc, hnov]

/-- Witness for `extract_name_spec`: the spec's own example
`pub1_MMtrackalembic_boulder_v001` extracts `MMtrackalembic_boulder_`, and
dropping the version token logs the naming-convention error with an empty
extracted name. -/
theorem extract_name_spec_witness :
    extractNameLog ("pub1".toList ++ "_MMtrackalembic_".toList
        ++ ("boulder".toList ++ ['_', 'v', '0', '0', '1']))
      = (some ("_MMtrackalembic_".toList.drop 1 ++ "boulder".toList ++ ['_']), false)
    ∧ extractNameLog "pub1_MMtrackalembic_boulder".toList = (some [], true) :=
  ⟨extract_name_spec.1 "pub1".toList "boulder".toList "_MMtrackalembic_".toList
      '0' '0' '1' (by decide) (by decide) (by decide) (by decide) (by decide)
      (by decide) (by decide) (by decide),
   extract_name_spec.2 "pub1_MMtrackalembic_boulder".toList "_MMtrackalembic_".toList
      (by decide) (by decide) (by decide) (by decide)⟩

theorem warning_of_mem {msg : ValMsg} {l : List ValMsg} (h : msg ∈ l) :
    (!l.isEmpty) = true := by
  cases l with
  | nil => cases h
  | cons a t => rfl

/-- Claim C4: a camera or mesh node whose name does not start with any of
the seven naming-convention tokens, or whose name — or any descendant's
name — starts or ends with an underscore, gets a naming-convention error
recorded in `error_msg`, and `validate` then pops the warning window
(`validationCheck_UI`) before publishing goes ahead. -/
theorem naming_validation_errors :
    (∀ (cam_name : List Char) (descendants : List (List Char)) (hasShapes : Bool),
       (namings.any (fun nm => nm.isPrefixOf cam_name) = false →
          ValMsg.notStartingConvention cam_name
              ∈ cameraValidationErrors cam_name descendants hasShapes
            ∧ cameraShowsWarning cam_name descendants hasShapes = true)
       ∧ (startsOrEndsUnderscore cam_name = true →
          ValMsg.underscoreName cam_name
              ∈ cameraValidationErrors cam_name descendants hasShapes
            ∧ cameraShowsWarning cam_name descendants hasShapes = true)
       ∧ (∀ d ∈ descendants, startsOrEndsUnderscore d = true →
          ValMsg.underscoreName d
              ∈ cameraValidationErrors cam_name descendants hasShapes
            ∧ cameraShowsWarning cam_name descendants hasShapes = true))
    ∧ (∀ (object_name : List Char) (descendants : List (List Char))
          (hasMeshShape hasAnyShape : Bool),
       (namings.any (fun nm => nm.isPrefixOf object_name) = false →
          ValMsg.notStartingConvention object_name
              ∈ meshValidationErrors object_name descendants hasMeshShape hasAnyShape
            ∧ meshShowsWarning object_name descendants hasMeshShape hasAnyShape = true)
       ∧ (startsOrEndsUnderscore object_name = true →
          ValMsg.underscoreName object_name
              ∈ meshValidationErrors object_name descendants hasMeshShape hasAnyShape
            ∧ meshShowsWarning object_name descendants hasMeshShape hasAnyShape = true)
       ∧ (∀ d ∈ descendants, startsOrEndsUnderscore d = true →
          ValMsg.underscoreName d
              ∈ meshValidationErrors object_name descendants hasMeshShape hasAnyShape
            ∧ meshShowsWarning object_name descendants hasMeshShape hasAnyShape = true)) := by
  constructor
  · intro cam_name descendants hasShapes
    refine ⟨fun h => ?_, fun h => ?_, fun d hd h => ?_⟩
    · have hm : ValMsg.notStartingConvention cam_name
          ∈ cameraValidationErrors cam_name descendants hasShapes := by
        unfold cameraValidationErrors
        simp [h]
      exact ⟨hm, by unfold cameraShowsWarning; exact warning_of_mem hm⟩
    · have hm : ValMsg.underscoreName cam_name
          ∈ cameraValidationErrors cam_name descendants hasShapes := by
        unfold cameraValidationErrors
        simp [h]
      exact ⟨hm, by unfold cameraShowsWarning; exact warning_of_mem hm⟩
    · have hm : ValMsg.underscoreName d
          ∈ cameraValidationErrors cam_name descendants hasShapes := by
        unfold cameraValidationErrors
        simp only [List.mem_append]
        exact Or.inr (List.mem_filterMap.mpr ⟨d, hd, by simp [h]⟩)
      exact ⟨hm, by unfold cameraShowsWarning; exact warning_of_mem hm⟩
  · intro object_name descendants hasMeshShape hasAnyShape
    refine ⟨fun h => ?_, fun h => ?_, fun d hd h => ?_⟩
    · have hm : ValMsg.notStartingConvention object_name
          ∈ meshValidationErrors object_name descendants hasMeshShape hasAnyShape := by
        unfold meshValidationErrors
        simp [h]
      exact ⟨hm, by unfold meshShowsWarning; exact warning_of_mem hm⟩
    · have hm : ValMsg.underscoreName object_name
          ∈ meshValidationErrors object_name descendants hasMeshShape hasAnyShape := by
        unfold meshValidationErrors
        simp [h]
      exact ⟨hm, by unfold meshShowsWarning; exact warning_of_mem hm⟩
    · have hm : ValMsg.underscoreName d
          ∈ meshValidationErrors object_name descendants hasMeshShape hasAnyShape := by
        unfold meshValidationErrors
        simp only [List.mem_append]
        exact Or.inr (List.mem_flatMap.mpr
          ⟨d, hd, by simp [h]⟩)
      exact ⟨hm, by unfold meshShowsWarning; exact warning_of_mem hm⟩

/-- Witness for `naming_validation_errors`: `camera1` (the default camera
name) matches no naming-convention token, a mesh node named `rock_` ends in
an underscore, and a well-named camera with a descendant `_child` still
errors on the descendant. -/
theorem naming_validation_errors_witness :
    (ValMsg.notStartingConvention "camera1".toList
        ∈ cameraValidationErrors "camera1".toList [] true
      ∧ cameraShowsWarning "camera1".toList [] true = true)
    ∧ (ValMsg.underscoreName "rock_".toList
        ∈ meshValidationErrors "rock_".toList [] false true
      ∧ meshShowsWarning "rock_".toList [] false true = true)
    ∧ (ValMsg.underscoreName "_child".toList
        ∈ cameraValidationErrors "fxgeo_cam".toList ["_child".toList] true
      ∧ cameraShowsWarning "fxgeo_cam".toList ["_child".toList] true = true) :=
  ⟨((naming_validation_errors.1 "camera1".toList [] true).1 (by decide)),
   ((naming_validation_errors.2 "rock_".toList [] false true).2.1 (by decide)),
   ((naming_validation_errors.1 "fxgeo_cam".toList ["_child".toList] true).2.2
      "_child".toList (by decide) (by decide))⟩

/-- Claim C8: whenever no node of the newly loaded reference carries an
`abc_start_frame` attribute equal to the playback minimum (`atrib` is
false), the offset computed by the final two-way comparison equals the
playback minimum frame regardless of the cache start frame — the comparison
is equivalent to the constant assignment `abc_offset = first_frame`. -/
theorem abc_offset_constant_equiv :
    (∀ first_frame start_frame : ℚ,
       abcOffsetFinal first_frame start_frame = abcOffsetConst first_frame start_frame)
    ∧ (∀ (first_frame : ℤ) (nodes : List RefNode) (archive : AbcArchive),
       atribOf first_frame nodes = false →
       abcOffsetOf first_frame nodes archive
         = (cacheStartFrame archive).map (fun _ => (first_frame : ℚ))) := by
  have hfin : ∀ first_frame start_frame : ℚ,
      abcOffsetFinal first_frame start_frame = abcOffsetConst first_frame start_frame := by
    intro f s
    by_cases h : f = s
    · simp [abcOffsetFinal, abcOffsetConst, h]
    · simp [abcOffsetFinal, abcOffsetConst, h]
  refine ⟨hfin, fun f nodes archive h => ?_⟩
  unfold abcOffsetOf
  rw [h]
  simp only [Bool.false_eq_true, if_false]
  cases cacheStartFrame archive with
  | none => rfl
  | some s => simp [hfin (f : ℚ) s, abcOffsetConst]

/-- Witness for `abc_offset_constant_equiv` at a concrete archive whose
cache start frame (120) differs from the playback minimum (1001). -/
theorem abc_offset_constant_equiv_witness :
    abcOffsetOf 1001 [] ⟨[⟨true, 5⟩], 3⟩
      = (cacheStartFrame ⟨[⟨true, 5⟩], 3⟩).map (fun _ => (1001 : ℚ)) :=
  abc_offset_constant_equiv.2 1001 [] ⟨[⟨true, 5⟩], 3⟩ rfl

/-- Claim C10: when the publish path does not exist on disk, both the
`reference` and the `import` loader actions raise (`Exception("File not
found on disk - ...")`) as their very first statement, before the namespace
is computed and before `cmds.file` is invoked, so the scene is untouched. -/
theorem loader_missing_path_raises (path entity_name publish_name : List Char)
    (loaded : LoadedFile) (playback_min : ℚ) :
    create_reference false path entity_name publish_name loaded playback_min
      = .error (.fileNotFound path)
    ∧ do_import false path entity_name publish_name loaded playback_min
      = .error (.fileNotFound path) :=
  ⟨rfl, rfl⟩

/-- Claim C5: `generate_actions` returns exactly one instance named
`reference`, `import`, `texture_node` and `image_plane` for each of those
names present in the supplied actions list, one `udim_texture_node`
instance exactly when that name is supplied and the Maya major version is
at least 2015, and nothing else. -/
theorem generate_actions_spec (actions : List String) (maya_ver : List Char) :
    (((generate_actions actions maya_ver).map ActionInstance.name).count "reference"
        = if "reference" ∈ actions then 1 else 0)
    ∧ (((generate_actions actions maya_ver).map ActionInstance.name).count "import"
        = if "import" ∈ actions then 1 else 0)
    ∧ (((generate_actions actions maya_ver).map ActionInstance.name).count "texture_node"
        = if "texture_node" ∈ actions then 1 else 0)
    ∧ (((generate_actions actions maya_ver).map ActionInstance.name).count "image_plane"
        = if "image_plane" ∈ actions then 1 else 0)
    ∧ (((generate_actions actions maya_ver).map ActionInstance.name).count "udim_texture_node"
        = if "udim_texture_node" ∈ actions ∧ 2015 ≤ get_maya_version maya_ver then 1 else 0)
    ∧ (∀ a ∈ generate_actions actions maya_ver,
        a.name ∈ (["reference", "import", "texture_node", "udim_texture_node",
                   "image_plane"] : List String)) := by
  refine ⟨?_, ?_, ?_, ?_, ?_, ?_⟩ <;>
    · unfold generate_actions
      split_ifs <;> simp_all

/-- Witness for `generate_actions_spec`: concrete action lists and version
strings, with the membership / version-threshold side conditions decided. -/
theorem generate_actions_spec_witness :
    (((generate_actions ["import", "udim_texture_node"] "2015".toList).map
        ActionInstance.name).count "udim_texture_node" = 1)
    ∧ (((generate_actions ["import", "udim_texture_node"] "Maya 2014".toList).map
        ActionInstance.name).count "udim_texture_node" = 0)
    ∧ (⟨"import", "Import into Scene",
        "This will import the item into the current scene."⟩ : ActionInstance).name
        ∈ (["reference", "import", "texture_node", "udim_texture_node",
            "image_plane"] : List String) := by
  refine ⟨?_, ?_, ?_⟩
  · rw [(generate_actions_spec ["import", "udim_texture_node"] "2015".toList).2.2.2.2.1]
    decide
  · rw [(generate_actions_spec ["import", "udim_texture_node"] "Maya 2014".toList).2.2.2.2.1]
    decide
  · exact (generate_actions_spec ["import", "udim_texture_node"] "2015".toList).2.2.2.2.2
      ⟨"import", "Import into Scene",
        "This will import the item into the current scene."⟩ (by decide)

end SGTK




